import Mathlib

/-!
# SilentCast modem core: shallow embedding and verification

Shallow embedding of the SilentCast acoustic-modem repository
(`src/utils/audioUtils.ts`, `src/components/Receiver.tsx`,
`src/components/Transmitter.tsx`, and the Receiver variant in
`src/unnamed/part_000`), together with proofs/refutations of the frozen
claims about it.

Modelling conventions:
* A JavaScript string is a `List ℕ` of UTF-16 code units (`JSStr`); this is
  faithful for all code points below 2^16, which covers every claim here.
* JavaScript number arithmetic that the claims depend on is modelled over
  `ℚ` (exact arithmetic); machine integers stay in `ℕ`/`ℤ`.
* Fallible operations return `Except`/`Option`.
-/

namespace SilentCast

/-- A JavaScript string, as its list of UTF-16 code units. -/
abbrev JSStr := List ℕ

/-! ## textToBinary (audioUtils.ts lines 35-40 / 217-222)

`text.split('').map(char => char.charCodeAt(0).toString(2).padStart(8,'0')).join('')`.
`Number.prototype.toString(2)` renders the binary digits of the code unit,
most significant first, with no leading zeros (and `"0"` for zero);
`padStart(8,'0')` left-pads with `'0'` up to length 8 and never truncates. -/

/-- Binary digits (values 0/1) of `n`, most significant first; `[]` for 0.
`fuel`-structured recursion; any `fuel ≥ n` gives the true digit list. -/
def bitsAux : ℕ → ℕ → List ℕ
  | 0, _ => []
  | fuel + 1, n => if n = 0 then [] else bitsAux fuel (n / 2) ++ [n % 2]

/-- Model of `n.toString(2)` (code units of the binary rendering). -/
def jsToString2 (n : ℕ) : JSStr :=
  if n = 0 then [48] else (bitsAux n n).map (fun d => 48 + d)

/-- Model of `s.padStart(8, '0')`. -/
def padStart8 (l : JSStr) : JSStr :=
  List.replicate (8 - l.length) 48 ++ l

/-- The bit chunk one character contributes to `textToBinary`. -/
def charBits (c : ℕ) : JSStr :=
  padStart8 (jsToString2 c)

/-- `textToBinary` from `audioUtils.ts`: per-character 8-bit-padded binary,
concatenated. -/
def textToBinary (s : JSStr) : JSStr :=
  (s.map charBits).flatten

/-! ## binaryToText (audioUtils.ts lines 45-50 / 227-232)

`binary.match(/.{1,8}/g) || []` followed by
`chunks.map(chunk => String.fromCharCode(parseInt(chunk, 2))).join('')`.
The regex `.` matches every code unit except the four line terminators, so
`match` yields the maximal runs of non-line-terminator units, greedily cut
into pieces of at most 8. `parseInt(chunk, 2)` skips leading whitespace,
reads an optional sign and then the longest prefix of binary digits,
yielding NaN when that prefix is empty; `String.fromCharCode` converts via
ToUint16 (NaN becomes 0). None of these primitives can throw, so the
function is total. -/

/-- JS line terminators (the code units the regex `.` does not match). -/
def isLineTerm (c : ℕ) : Bool :=
  c == 10 || c == 13 || c == 8232 || c == 8233

/-- Chunker for `/.{1,8}/g`: builds the current chunk in `acc` (reversed),
flushing at length 8 or at a line terminator, and at the end of input. -/
def jsChunksGo : List ℕ → JSStr → List JSStr
  | acc, [] => if acc.isEmpty then [] else [acc.reverse]
  | acc, c :: t =>
    if isLineTerm c then
      if acc.isEmpty then jsChunksGo [] t else acc.reverse :: jsChunksGo [] t
    else if acc.length == 7 then
      (acc.reverse ++ [c]) :: jsChunksGo [] t
    else
      jsChunksGo (c :: acc) t

/-- Model of `binary.match(/.{1,8}/g) || []`. -/
def jsChunks (l : JSStr) : List JSStr :=
  jsChunksGo [] l

/-- JS StrWhiteSpace code units (skipped by `parseInt`). -/
def isJsWs (c : ℕ) : Bool :=
  c == 9 || c == 10 || c == 11 || c == 12 || c == 13 || c == 32 ||
  c == 160 || c == 5760 || (8192 ≤ c && c ≤ 8202) || c == 8232 ||
  c == 8233 || c == 8239 || c == 8287 || c == 12288 || c == 65279

/-- Binary digit code units accepted by `parseInt(_, 2)`. -/
def isBinDigit (c : ℕ) : Bool :=
  c == 48 || c == 49

/-- Accumulate the value of a list of binary-digit code units, MSB first. -/
def parseFoldN (ds : JSStr) : ℕ :=
  ds.foldl (fun a d => 2 * a + (d - 48)) 0

/-- Sign handling of `parseInt`: consume one leading `'-'` or `'+'`. -/
def jsParseIntSign (l : JSStr) : Bool × JSStr :=
  match l with
  | [] => (false, [])
  | c :: t => if c == 45 then (true, t) else if c == 43 then (false, t) else (false, c :: t)

/-- Model of `parseInt(chunk, 2)`: `none` is NaN. -/
def jsParseIntBin (l : JSStr) : Option ℤ :=
  let s := jsParseIntSign (l.dropWhile isJsWs)
  let ds := s.2.takeWhile isBinDigit
  if ds.isEmpty then none
  else some (if s.1 then -(parseFoldN ds : ℤ) else (parseFoldN ds : ℤ))

/-- Model of `String.fromCharCode`: ToUint16, with NaN mapped to 0. -/
def fromCharCode : Option ℤ → ℕ
  | none => 0
  | some z => (z % 65536).toNat

/-- `binaryToText` from `audioUtils.ts`. -/
def binaryToText (l : JSStr) : JSStr :=
  (jsChunks l).map (fun chunk => fromCharCode (jsParseIntBin chunk))

/-- The message of the `throw new Error('Invalid binary data received')`
branch of `decodeBinary`. -/
def invalidBinaryMsg : JSStr :=
  "Invalid binary data received".data.map Char.toNat

/-- `binaryToText` wrapped as a fallible computation, as `decodeBinary`
calls it. Per the JS semantics recorded above none of its primitives can
throw, so it always succeeds. -/
def binaryToTextE (l : JSStr) : Except JSStr JSStr :=
  Except.ok (binaryToText l)

/-- `decodeBinary` from `audioUtils.ts` lines 164-170: try `binaryToText`,
re-raising any failure as 'Invalid binary data received'. -/
def decodeBinary (l : JSStr) : Except JSStr JSStr :=
  match binaryToTextE l with
  | Except.ok r => Except.ok r
  | Except.error _ => Except.error invalidBinaryMsg

/-! ## The src Receiver decode loop (Receiver.tsx lines 55-116)

One accepted symbol decision per step: the bit character is appended to the
binary buffer; once the buffer holds at least 16 bits the loop tries start
offsets 0..8, decodes the longest whole-byte prefix from each offset, keeps
the longest fully printable decode, emits it and drops the consumed
characters; finally the buffer is trimmed to at most 200 characters by
dropping the oldest 50. -/

/-- The regex test `/^[\x20-\x7E]*$/.test(decoded)`. -/
def isPrintable (l : JSStr) : Bool :=
  l.all (fun c => 32 ≤ c && c ≤ 126)

/-- Candidate decode at one start offset (Receiver.tsx lines 74-81):
`remaining = buffer.substring(start)`, `byteLength = ⌊remaining.length/8⌋*8`,
and if at least one whole byte is available, the decode of
`remaining.substring(0, byteLength)`. -/
def candAt (buf : JSStr) (start : ℕ) : Option JSStr :=
  let remaining := buf.drop start
  let byteLength := remaining.length / 8 * 8
  if 8 ≤ byteLength then some (binaryToText (remaining.take byteLength)) else none

/-- One iteration of the best-match scan (Receiver.tsx lines 83-88): a
candidate replaces the current best only when it is printable, non-empty
and strictly longer. -/
def bestStep (buf : JSStr) (acc : JSStr × ℕ) (start : ℕ) : JSStr × ℕ :=
  match candAt buf start with
  | none => acc
  | some decoded =>
    if isPrintable decoded = true ∧ 0 < decoded.length ∧ acc.1.length < decoded.length
    then (decoded, start) else acc

/-- The scan over start offsets 0..8 (`for (let start = 0; start <= 8; ...)`). -/
def bestFold (buf : JSStr) : JSStr × ℕ :=
  (List.range 9).foldl (bestStep buf) ([], 0)

/-- The decode attempt: `some (bestMatch, bestStart)` when a non-empty best
match was found (`if (bestMatch) { ... }`). -/
def tryDecode (buf : JSStr) : Option (JSStr × ℕ) :=
  if (bestFold buf).1.isEmpty then none else some (bestFold buf)

/-- The buffer cap (Receiver.tsx lines 110-113):
`if (length > 200) buffer = buffer.substring(50)`. -/
def trimBuf (l : JSStr) : JSStr :=
  if 200 < l.length then l.drop 50 else l

/-- The code unit appended for an accepted bit (`'0'` or `'1'`). -/
def bitChar (b : Bool) : ℕ :=
  if b then 49 else 48

/-- One accepted symbol decision through the src Receiver decode path:
append the bit, attempt a decode once 16 bits are buffered (consuming
`bestStart + bestMatch.length * 8` characters on success), then trim. -/
def listenStep (buf : JSStr) (b : Bool) : Option JSStr × JSStr :=
  let buf1 := buf ++ [bitChar b]
  let r : Option JSStr × JSStr :=
    if 16 ≤ buf1.length then
      match tryDecode buf1 with
      | some ms => (some ms.1, buf1.drop (ms.2 + ms.1.length * 8))
      | none => (none, buf1)
    else (none, buf1)
  (r.1, trimBuf r.2)

/-- Run a sequence of exact symbol decisions through the decode path,
collecting the emitted messages in order. -/
def runSteps (buf : JSStr) : List Bool → List JSStr × JSStr
  | [] => ([], buf)
  | b :: bs =>
    let r1 := listenStep buf b
    let r2 := runSteps r1.2 bs
    (r1.1.toList ++ r2.1, r2.2)

/-- Run from the initial (empty) buffer, as `startListening` resets it. -/
def runFromEmpty (bits : List Bool) : List JSStr × JSStr :=
  runSteps [] bits

/-- The Modulator's bit characters read back as symbol decisions. -/
def bitsOf (s : JSStr) : List Bool :=
  s.map (fun c => c == 49)

/-! ## Frame decoder used by the part_000 Receiver

Modelled from the spec: `decodeBinaryWithPreamble` is called by the
Receiver variant in `src/unnamed/part_000` (line 86) but its definition is
not in `src/` (the `audioUtils.ts` snapshots present predate it). Modelled
from spec section 4.3: search the buffer for the first occurrence of
PREAMBLE; if absent, report no synchronization. Otherwise search for
TERMINATOR strictly after the preamble; the bits between them, truncated
to a whole number of bytes, are the candidate payload, accepted only when
every decoded character is printable, otherwise the search keeps waiting
for a terminator further along. PREAMBLE is the alternating pattern the
Transmitter logs (`10101010`), TERMINATOR the spec's all-ones marker. -/

def PREAMBLE : JSStr := [49, 48, 49, 48, 49, 48, 49, 48]

def TERMINATOR : JSStr := [49, 49, 49, 49, 49, 49, 49, 49]

/-- All offsets at which `pat` occurs in `l`, in increasing order. -/
def occs (pat l : JSStr) : List ℕ :=
  (List.range (l.length + 1)).filter (fun i => pat.isPrefixOf (l.drop i))

/-- Result of a frame-decode attempt. -/
structure DecodeResult where
  hasValidPreamble : Bool
  isComplete : Bool
  decoded : JSStr
  deriving DecidableEq, Repr

/-- Modelled from the spec: the terminator candidates after the preamble.
For each TERMINATOR occurrence, in order, the bits before it are truncated
to a whole number of bytes and decoded; only fully printable decodes are
kept (a non-printable decode means the search keeps waiting for a
terminator further along). -/
def frameCands (after : JSStr) : List (ℕ × JSStr) :=
  (occs TERMINATOR after).filterMap (fun j =>
    let payload := after.take j
    let decoded := binaryToText (payload.take (payload.length / 8 * 8))
    if isPrintable decoded then some (j, decoded) else none)

/-- Modelled from the spec: the frame synchronizer and decoder of section
4.3 (the missing `decodeBinaryWithPreamble`). -/
def decodeBinaryWithPreamble (buf : JSStr) : DecodeResult :=
  match (occs PREAMBLE buf).head? with
  | none => ⟨false, false, []⟩
  | some i =>
    match (frameCands (buf.drop (i + PREAMBLE.length))).head? with
    | some jd => ⟨true, true, jd.2⟩
    | none => ⟨true, false, []⟩

/-! ## The part_000 Receiver accept loop (src/unnamed/part_000 lines 53-122)

Consecutive-confirmation debounce: a detection within 150 ms of the last
accepted symbol increments the consecutive counter, otherwise it resets to
1; the bit is appended only when the counter has reached 2 or the quality
exceeds 80. A missing detection resets the counter once more than 200 ms
have passed. The buffer reset scheduled with `setTimeout` after a complete
decode is asynchronous and therefore outside this synchronous step. -/

/-- Demodulator state of the part_000 Receiver (refs at lines 28-31). -/
structure PState where
  buffer : JSStr
  last : ℕ
  consec : ℕ
  hasPreamble : Bool
  deriving DecidableEq, Repr

/-- One spectrum analysis outcome as the part_000 loop consumes it. -/
structure PInput where
  detected : Bool
  bit : Option Bool
  quality : ℕ
  now : ℕ
  deriving DecidableEq, Repr

/-- One tick of the part_000 listen loop. -/
def stepP (st : PState) (inp : PInput) : Option JSStr × PState :=
  if inp.detected && inp.bit.isSome then
    let consecNew := if inp.now - st.last < 150 then st.consec + 1 else 1
    if 2 ≤ consecNew ∨ 80 < inp.quality then
      let bufNew := st.buffer ++ [bitChar (inp.bit.getD false)]
      let r := decodeBinaryWithPreamble bufNew
      ((if r.isComplete then some r.decoded else none),
        ⟨bufNew, inp.now, consecNew, st.hasPreamble || r.hasValidPreamble⟩)
    else (none, ⟨st.buffer, st.last, consecNew, st.hasPreamble⟩)
  else
    (none, if 200 < inp.now - st.last then ⟨st.buffer, st.last, 0, st.hasPreamble⟩ else st)

/-! ## analyzeSpectrum (audioUtils.ts lines 330-424)

The symbol detector over one frequency-bin energy snapshot (a `Uint8Array`,
modelled as `List ℕ`). Real-number arithmetic is modelled exactly over `ℚ`;
constants are the source's: FREQ_0 = 2000, FREQ_1 = 5000, SAMPLE_RATE =
44100 (nyquist 22050), windowSize 3, noise fallback 50, dynamic threshold
`max (noise + 15) 30`, bit rule `diff > total*0.3 ∧ diff > 40`, quality
`min 100 (max 0 ((snr - 1) * 20))` with `snr = maxEnergy / (noise + 1)`. -/

/-- `Math.round` on a rational (round half toward positive infinity). -/
def jsRoundQ (q : ℚ) : ℤ :=
  Int.floor (q + 1 / 2)

/-- `binSize = nyquist / bufferLength`. -/
def binSizeQ (len : ℕ) : ℚ :=
  22050 / (len : ℚ)

/-- `Math.round(freq / binSize)`: the bin index nearest a carrier. -/
def targetBin (freq len : ℕ) : ℕ :=
  (jsRoundQ ((freq : ℚ) / binSizeQ len)).toNat

def bin0 (data : List ℕ) : ℕ := targetBin 2000 data.length

def bin1 (data : List ℕ) : ℕ := targetBin 5000 data.length

/-- Windowed energy sum over ±3 bins with the source's bounds checks
(`idx >= 0 && idx < bufferLength`). -/
def windowSum (data : List ℕ) (bin : ℕ) : ℕ :=
  ((List.range 7).map (fun j =>
    if bin + j < 3 then 0
    else if bin + j - 3 < data.length then data.getD (bin + j - 3) 0
    else 0)).sum

/-- `energy0` / `energy1`: window sum averaged over the 7 window bins. -/
def energyQ (data : List ℕ) (bin : ℕ) : ℚ :=
  (windowSum data bin : ℚ) / 7

def energy0Q (data : List ℕ) : ℚ := energyQ data (bin0 data)

def energy1Q (data : List ℕ) : ℚ := energyQ data (bin1 data)

/-- `Math.abs(i - bin)` over natural bin indices. -/
def absDiff (a b : ℕ) : ℕ :=
  max (a - b) (b - a)

/-- Whether bin `i` is outside both exclusion zones (±6 around each target). -/
def isNoiseBin (b0 b1 i : ℕ) : Bool :=
  6 < absDiff i b0 && 6 < absDiff i b1

def noiseSumAux (data : List ℕ) (b0 b1 : ℕ) : ℕ :=
  ((List.range data.length).map (fun i =>
    if isNoiseBin b0 b1 i then data.getD i 0 else 0)).sum

def noiseCountAux (data : List ℕ) (b0 b1 : ℕ) : ℕ :=
  ((List.range data.length).filter (fun i => isNoiseBin b0 b1 i)).length

def noiseSum (data : List ℕ) : ℕ :=
  noiseSumAux data (bin0 data) (bin1 data)

def noiseCount (data : List ℕ) : ℕ :=
  noiseCountAux data (bin0 data) (bin1 data)

/-- `noiseLevel`: mean energy over non-excluded bins, 50 when none exist. -/
def noiseLevelQ (data : List ℕ) : ℚ :=
  if noiseCount data ≠ 0 then (noiseSum data : ℚ) / (noiseCount data : ℚ) else 50

/-- `dynamicThreshold = Math.max(noiseLevel + 15, 30)`. -/
def dynThresholdQ (data : List ℕ) : ℚ :=
  max (noiseLevelQ data + 15) 30

def maxEnergyQ (data : List ℕ) : ℚ :=
  max (energy0Q data) (energy1Q data)

/-- `detected = maxEnergy > dynamicThreshold`. -/
def detectedB (data : List ℕ) : Bool :=
  decide (dynThresholdQ data < maxEnergyQ data)

/-- `signalToNoise = maxEnergy / (noiseLevel + 1)`. -/
def snrQ (data : List ℕ) : ℚ :=
  maxEnergyQ data / (noiseLevelQ data + 1)

/-- `signalQuality = Math.min(100, Math.max(0, (signalToNoise - 1) * 20))`
before the final rounding. -/
def qualityRawQ (data : List ℕ) : ℚ :=
  min 100 (max 0 ((snrQ data - 1) * 20))

/-- `energyDiff = Math.abs(energy0 - energy1)`. -/
def energyDiffQ (data : List ℕ) : ℚ :=
  |energy0Q data - energy1Q data|

/-- The bit decision (audioUtils.ts lines 401-415): only when detected and
`energyDiff > totalEnergy * 0.3` and `energyDiff > 40`; then `'1'` iff
`energy1 > energy0`. `none` is the NONE decision. -/
def detectedBitO (data : List ℕ) : Option Bool :=
  if detectedB data then
    if (energy0Q data + energy1Q data) * (3 / 10) < energyDiffQ data ∧
        40 < energyDiffQ data
    then some (decide (energy0Q data < energy1Q data)) else none
  else none

/-- The record `analyzeSpectrum` returns (rounded display energies, the
detection flag, the bit decision, the rounded quality score). -/
structure SpectrumResult where
  freq0 : ℤ
  freq1 : ℤ
  detected : Bool
  detectedBit : Option Bool
  signalQuality : ℤ
  deriving DecidableEq, Repr

/-- `analyzeSpectrum` from `audioUtils.ts` lines 330-424. -/
def analyzeSpectrum (data : List ℕ) : SpectrumResult :=
  ⟨jsRoundQ (energy0Q data), jsRoundQ (energy1Q data), detectedB data,
    detectedBitO data, jsRoundQ (qualityRawQ data)⟩

/-- Definition following the words of the spec (section 4.2 step 7), for
comparison with the source's quality score:
`clamp(0, 100, round(diff / maxEnergy * 100))`. -/
def specQualityScore (data : List ℕ) : ℤ :=
  min 100 (max 0 (jsRoundQ (energyDiffQ data / maxEnergyQ data * 100)))

/-! ## Concrete spectra used as witnesses and counterexamples -/

/-- A 32-bin snapshot with a strong clean tone on the bit-0 carrier. -/
def dataToneA : List ℕ :=
  List.replicate 7 255 ++ List.replicate 25 0

/-- A 32-bin snapshot with both carriers nearly equally strong. -/
def dataToneB : List ℕ :=
  [0, 0, 0, 252, 0, 0, 0, 0, 0, 0, 210] ++ List.replicate 21 0

/-! ## Lemmas about the binary rendering of a character -/

theorem bitsAux_mem : ∀ (fuel n d : ℕ), d ∈ bitsAux fuel n → d < 2 := by
  intro fuel
  induction fuel with
  | zero => intro n d h; simp [bitsAux] at h
  | succ f ih =>
    intro n d h
    by_cases hn : n = 0
    · simp [bitsAux, hn] at h
    · simp only [bitsAux, if_neg hn, List.mem_append, List.mem_singleton] at h
      rcases h with h | h
      · exact ih _ _ h
      · subst h; exact Nat.mod_lt _ (by omega)

theorem bitsAux_len_le : ∀ (fuel n k : ℕ), n ≤ fuel → n < 2 ^ k →
    (bitsAux fuel n).length ≤ k := by
  intro fuel
  induction fuel with
  | zero => intro n k _ _; simp [bitsAux]
  | succ f ih =>
    intro n k hf hk
    by_cases hn : n = 0
    · simp [bitsAux, hn]
    · have hk1 : 1 ≤ k := by
        by_contra h
        interval_cases k
        omega
      have hdiv : n / 2 ≤ f := by
        have := Nat.div_lt_self (by omega : 0 < n) (by omega : 1 < 2)
        omega
      have hlt : n / 2 < 2 ^ (k - 1) := by
        have h2 : 2 ^ k = 2 ^ (k - 1) * 2 := by
          rw [← pow_succ]
          congr 1
          omega
        rw [h2] at hk
        exact Nat.div_lt_of_lt_mul (by omega)
      have := ih (n / 2) (k - 1) hdiv hlt
      simp only [bitsAux, if_neg hn, List.length_append, List.length_singleton]
      omega

theorem bitsAux_len_ge : ∀ (fuel n k : ℕ), n ≤ fuel → 2 ^ k ≤ n →
    k + 1 ≤ (bitsAux fuel n).length := by
  intro fuel
  induction fuel with
  | zero => intro n k hf hk; exfalso; have := Nat.one_le_two_pow (n := k); omega
  | succ f ih =>
    intro n k hf hk
    have hn : n ≠ 0 := by have := Nat.one_le_two_pow (n := k); omega
    simp only [bitsAux, if_neg hn, List.length_append, List.length_singleton]
    rcases Nat.eq_zero_or_pos k with hk0 | hkpos
    · omega
    · have hdiv : n / 2 ≤ f := by
        have := Nat.div_lt_self (by omega : 0 < n) (by omega : 1 < 2)
        omega
      have hge : 2 ^ (k - 1) ≤ n / 2 := by
        have h2 : 2 ^ k = 2 ^ (k - 1) * 2 := by
          rw [← pow_succ]
          congr 1
          omega
        rw [h2] at hk
        exact Nat.le_div_iff_mul_le (by omega) |>.mpr hk
      have := ih (n / 2) (k - 1) hdiv hge
      omega

theorem bitsAux_fold : ∀ (fuel n : ℕ), n ≤ fuel →
    (bitsAux fuel n).foldl (fun a d => 2 * a + d) 0 = n := by
  intro fuel
  induction fuel with
  | zero => intro n h; interval_cases n; simp [bitsAux]
  | succ f ih =>
    intro n hf
    by_cases hn : n = 0
    · simp [bitsAux, hn]
    · have hdiv : n / 2 ≤ f := by
        have := Nat.div_lt_self (by omega : 0 < n) (by omega : 1 < 2)
        omega
      simp only [bitsAux, if_neg hn, List.foldl_append, ih (n / 2) hdiv, List.foldl_cons,
        List.foldl_nil]
      omega

theorem charBits_all_bin (c : ℕ) : ∀ x ∈ charBits c, isBinDigit x = true := by
  intro x hx
  simp only [charBits, padStart8, jsToString2, List.mem_append, List.mem_replicate] at hx
  rcases hx with hx | hx
  · simp [isBinDigit, hx.2]
  · by_cases hc : c = 0
    · simp [hc] at hx
      simp [isBinDigit, hx]
    · simp only [if_neg hc, List.mem_map] at hx
      obtain ⟨d, hd, rfl⟩ := hx
      have := bitsAux_mem c c d hd
      interval_cases d <;> simp [isBinDigit]

theorem len_charBits_ge (c : ℕ) : 8 ≤ (charBits c).length := by
  simp only [charBits, padStart8, List.length_append, List.length_replicate]
  omega

theorem charBits_ne_nil (c : ℕ) : charBits c ≠ [] := by
  have := len_charBits_ge c
  intro h
  rw [h] at this
  simp at this

theorem len_charBits (c : ℕ) (hc : c < 256) : (charBits c).length = 8 := by
  have hle : (jsToString2 c).length ≤ 8 := by
    by_cases h0 : c = 0
    · simp [jsToString2, h0]
    · simp only [jsToString2, if_neg h0, List.length_map]
      exact bitsAux_len_le c c 8 le_rfl (by omega)
  simp only [charBits, padStart8, List.length_append, List.length_replicate]
  omega

theorem len_charBits_gt (c : ℕ) (hc : 256 ≤ c) : 8 < (charBits c).length := by
  have h0 : c ≠ 0 := by omega
  have hge : 9 ≤ (jsToString2 c).length := by
    simp only [jsToString2, if_neg h0, List.length_map]
    exact bitsAux_len_ge c c 8 le_rfl (by simpa using hc)
  simp only [charBits, padStart8, List.length_append, List.length_replicate]
  omega

/-! ## Parsing back a character's bit chunk -/

theorem dropWhile_all_false {p : ℕ → Bool} :
    ∀ l : JSStr, (∀ x ∈ l, p x = false) → l.dropWhile p = l := by
  intro l h
  cases l with
  | nil => rfl
  | cons a t =>
    have := h a (by simp)
    simp [List.dropWhile_cons, this]

theorem takeWhile_all_true {p : ℕ → Bool} :
    ∀ l : JSStr, (∀ x ∈ l, p x = true) → l.takeWhile p = l := by
  intro l
  induction l with
  | nil => intro _; rfl
  | cons a t ih =>
    intro h
    have ha := h a (by simp)
    simp [List.takeWhile_cons, ha, ih fun x hx => h x (by simp [hx])]

theorem isBinDigit_cases {x : ℕ} (h : isBinDigit x = true) : x = 48 ∨ x = 49 := by
  simp only [isBinDigit, Bool.or_eq_true, beq_iff_eq] at h
  exact h

theorem isJsWs_of_bin {x : ℕ} (h : isBinDigit x = true) : isJsWs x = false := by
  rcases isBinDigit_cases h with rfl | rfl <;> decide

theorem isLineTerm_of_bin {x : ℕ} (h : isBinDigit x = true) : isLineTerm x = false := by
  rcases isBinDigit_cases h with rfl | rfl <;> decide

theorem parseFoldN_replicate_zero (k : ℕ) (l : JSStr) :
    parseFoldN (List.replicate k 48 ++ l) = parseFoldN l := by
  have h0 : ∀ m, List.foldl (fun a d => 2 * a + (d - 48)) 0 (List.replicate m 48) = 0 := by
    intro m
    induction m with
    | zero => rfl
    | succ m ih => simpa [List.replicate_succ] using ih
  simp [parseFoldN, List.foldl_append, h0 k]

theorem parseFoldN_charBits (c : ℕ) : parseFoldN (charBits c) = c := by
  by_cases h0 : c = 0
  · subst h0; decide
  · simp only [charBits, padStart8, jsToString2, if_neg h0, parseFoldN_replicate_zero]
    have hmap : parseFoldN ((bitsAux c c).map (fun d => 48 + d)) =
        (bitsAux c c).foldl (fun a d => 2 * a + d) 0 := by
      simp only [parseFoldN, List.foldl_map]
      congr 1
      funext a d
      omega
    rw [hmap, bitsAux_fold c c le_rfl]

theorem jsParseIntSign_bin {h : ℕ} (t : JSStr) (hb : isBinDigit h = true) :
    jsParseIntSign (h :: t) = (false, h :: t) := by
  rcases isBinDigit_cases hb with rfl | rfl <;> rfl

theorem jsParseIntBin_all_bin (l : JSStr) (hne : l ≠ [])
    (hb : ∀ x ∈ l, isBinDigit x = true) :
    jsParseIntBin l = some (parseFoldN l : ℤ) := by
  obtain ⟨h, t, rfl⟩ := List.exists_cons_of_ne_nil hne
  have hdrop : (h :: t).dropWhile isJsWs = h :: t :=
    dropWhile_all_false _ fun x hx => isJsWs_of_bin (hb x hx)
  have htake : (h :: t).takeWhile isBinDigit = h :: t :=
    takeWhile_all_true _ hb
  simp [jsParseIntBin, hdrop, jsParseIntSign_bin t (hb h (by simp)), htake]

theorem jsParseIntBin_charBits (c : ℕ) :
    jsParseIntBin (charBits c) = some (c : ℤ) := by
  rw [jsParseIntBin_all_bin (charBits c) (charBits_ne_nil c) (charBits_all_bin c),
    parseFoldN_charBits]

theorem fromCharCode_lt (c : ℕ) (hc : c < 65536) :
    fromCharCode (some (c : ℤ)) = c := by
  simp only [fromCharCode]
  rw [Int.emod_eq_of_lt (by positivity) (by exact_mod_cast hc)]
  simp

/-! ## Lemmas about the `/.{1,8}/g` chunker -/

theorem jsChunksGo_build : ∀ (B : JSStr) (acc : List ℕ) (rest : JSStr),
    (∀ x ∈ B, isLineTerm x = false) → acc.length + B.length = 8 → B ≠ [] →
    jsChunksGo acc (B ++ rest) = (acc.reverse ++ B) :: jsChunksGo [] rest := by
  intro B
  induction B with
  | nil => intro acc rest _ _ hne; exact absurd rfl hne
  | cons c B2 ih =>
    intro acc rest hnl hlen _
    have hc : isLineTerm c = false := hnl c (by simp)
    cases B2 with
    | nil =>
      have h7 : acc.length == 7 := by
        simp only [List.length_cons, List.length_nil] at hlen
        simp [Nat.beq_eq_true_eq]
        omega
      simp [jsChunksGo, hc, h7]
    | cons d B3 =>
      have h7 : (acc.length == 7) = false := by
        simp only [List.length_cons] at hlen
        simp [Nat.beq_eq_true_eq]
        omega
      have hstep : jsChunksGo acc ((c :: d :: B3) ++ rest) =
          jsChunksGo (c :: acc) ((d :: B3) ++ rest) := by
        simp [jsChunksGo, hc, h7]
      rw [hstep, ih (c :: acc) rest (fun x hx => hnl x (by simp [hx]))
        (by simp only [List.length_cons] at hlen ⊢; omega) (by simp)]
      simp

theorem jsChunks_cons8 (B rest : JSStr) (hlen : B.length = 8)
    (hnl : ∀ x ∈ B, isLineTerm x = false) :
    jsChunks (B ++ rest) = B :: jsChunks rest := by
  have := jsChunksGo_build B [] rest hnl (by simpa using hlen)
    (by intro h; rw [h] at hlen; simp at hlen)
  simpa [jsChunks] using this

theorem jsChunksGo_small : ∀ (l : JSStr) (acc : List ℕ),
    (∀ x ∈ l, isLineTerm x = false) → 0 < acc.length + l.length →
    acc.length + l.length ≤ 8 →
    jsChunksGo acc l = [acc.reverse ++ l] := by
  intro l
  induction l with
  | nil =>
    intro acc _ hpos _
    have : acc.isEmpty = false := by
      cases acc with
      | nil => simp at hpos
      | cons _ _ => rfl
    simp [jsChunksGo, this]
  | cons c t ih =>
    intro acc hnl hpos hle
    have hc : isLineTerm c = false := hnl c (by simp)
    by_cases h7 : acc.length = 7
    · have ht : t = [] := by
        simp only [List.length_cons] at hle
        cases t with
        | nil => rfl
        | cons _ _ => simp at hle; omega
      subst ht
      have h7b : (acc.length == 7) = true := by simp [h7]
      simp [jsChunksGo, hc, h7b]
    · have h7b : (acc.length == 7) = false := by simp [h7]
      have hstep : jsChunksGo acc (c :: t) = jsChunksGo (c :: acc) t := by
        simp [jsChunksGo, hc, h7b]
      rw [hstep, ih (c :: acc) (fun x hx => hnl x (by simp [hx]))
        (by simp) (by simp only [List.length_cons] at hle ⊢; omega)]
      simp

theorem jsChunks_small (l : JSStr) (hnl : ∀ x ∈ l, isLineTerm x = false)
    (hpos : 0 < l.length) (hle : l.length ≤ 8) :
    jsChunks l = [l] := by
  have := jsChunksGo_small l [] hnl (by simpa using hpos) (by simpa using hle)
  simpa [jsChunks] using this

theorem jsChunks_nil : jsChunks [] = [] := rfl

/-- Chunk count of a line-terminator-free string: one chunk per started
byte, so a trailing short chunk still counts. -/
theorem jsChunks_count : ∀ (n : ℕ) (l : JSStr), l.length ≤ n →
    (∀ x ∈ l, isLineTerm x = false) →
    (jsChunks l).length = (l.length + 7) / 8 := by
  intro n
  induction n with
  | zero =>
    intro l hl _
    have : l = [] := List.length_eq_zero.mp (by omega)
    subst this
    simp [jsChunks_nil]
  | succ n ih =>
    intro l hl hnl
    by_cases hz : l.length = 0
    · have : l = [] := List.length_eq_zero.mp hz
      subst this
      simp [jsChunks_nil]
    · by_cases hsmall : l.length ≤ 8
      · rw [jsChunks_small l hnl (by omega) hsmall]
        simp only [List.length_singleton]
        omega
      · have hsplit : l = l.take 8 ++ l.drop 8 := (List.take_append_drop 8 l).symm
        have hlen8 : (l.take 8).length = 8 := by
          rw [List.length_take]
          omega
        have hrec : (jsChunks (l.drop 8)).length = ((l.drop 8).length + 7) / 8 := by
          refine ih (l.drop 8) ?_ ?_
          · rw [List.length_drop]; omega
          · intro x hx
            exact hnl x (List.mem_of_mem_drop hx)
        have hch : jsChunks l = l.take 8 :: jsChunks (l.drop 8) := by
          conv_lhs => rw [hsplit]
          exact jsChunks_cons8 (l.take 8) (l.drop 8) hlen8
            fun x hx => hnl x (List.mem_of_mem_take hx)
        rw [hch]
        simp only [List.length_cons, hrec, List.length_drop]
        have h9 : 9 ≤ l.length := by omega
        omega

/-! ## Decoding whole 8-bit blocks -/

theorem binaryToText_nil : binaryToText [] = [] := rfl

theorem binaryToText_block (B rest : JSStr) (hlen : B.length = 8)
    (hb : ∀ x ∈ B, isBinDigit x = true) :
    binaryToText (B ++ rest) =
      fromCharCode (jsParseIntBin B) :: binaryToText rest := by
  simp [binaryToText, jsChunks_cons8 B rest hlen fun x hx => isLineTerm_of_bin (hb x hx)]

theorem binaryToText_single (B : JSStr) (hlen : B.length = 8)
    (hb : ∀ x ∈ B, isBinDigit x = true) :
    binaryToText B = [fromCharCode (jsParseIntBin B)] := by
  have := binaryToText_block B [] hlen hb
  simpa [binaryToText_nil] using this

theorem binaryToText_charBits_pair (a b : ℕ) (ha : a < 256) (hb : b < 256) :
    binaryToText (charBits a ++ charBits b) = [a, b] := by
  rw [binaryToText_block (charBits a) (charBits b) (len_charBits a ha) (charBits_all_bin a),
    binaryToText_single (charBits b) (len_charBits b hb) (charBits_all_bin b),
    jsParseIntBin_charBits, jsParseIntBin_charBits, fromCharCode_lt a (by omega),
    fromCharCode_lt b (by omega)]

/-! ## Lemmas about pattern occurrences -/

theorem isPrefixOf_length : ∀ (p l : JSStr), p.isPrefixOf l = true → p.length ≤ l.length := by
  intro p
  induction p with
  | nil => intro l _; simp
  | cons a t ih =>
    intro l h
    cases l with
    | nil => simp [List.isPrefixOf] at h
    | cons b t2 =>
      simp only [List.isPrefixOf, Bool.and_eq_true] at h
      have := ih t2 h.2
      simp only [List.length_cons]
      omega

theorem occs_pairwise (pat l : JSStr) : (occs pat l).Pairwise (· < ·) :=
  (List.pairwise_lt_range _).filter _

theorem occs_head_le (pat l : JSStr) (i : ℕ) (h : (occs pat l).head? = some i) :
    ∀ k ∈ occs pat l, i ≤ k := by
  cases hocc : occs pat l with
  | nil => rw [hocc] at h; simp at h
  | cons a t =>
    rw [hocc] at h
    simp only [List.head?_cons, Option.some.injEq] at h
    subst h
    intro k hk
    have hp := occs_pairwise pat l
    rw [hocc] at hp
    rcases List.mem_cons.mp hk with rfl | hk2
    · exact le_rfl
    · exact le_of_lt ((List.pairwise_cons.mp hp).1 k hk2)

theorem mem_occs (pat l : JSStr) (k : ℕ) (hpat : pat ≠ [])
    (h : pat.isPrefixOf (l.drop k) = true) : k ∈ occs pat l := by
  have hlen := isPrefixOf_length pat (l.drop k) h
  rw [List.length_drop] at hlen
  have hp : 1 ≤ pat.length := by
    cases pat with
    | nil => exact absurd rfl hpat
    | cons _ _ => simp
  simp only [occs, List.mem_filter, List.mem_range]
  exact ⟨by omega, h⟩

theorem frameCands_mem (after : JSStr) (jd : ℕ × JSStr) (h : jd ∈ frameCands after) :
    TERMINATOR.isPrefixOf (after.drop jd.1) = true ∧
    jd.2 = binaryToText ((after.take jd.1).take ((after.take jd.1).length / 8 * 8)) ∧
    isPrintable jd.2 = true := by
  obtain ⟨j, hj, hfj⟩ := List.mem_filterMap.mp h
  dsimp only at hfj
  split_ifs at hfj with hpr
  rw [Option.some.injEq] at hfj
  subst hfj
  exact ⟨(List.mem_filter.mp hj).2, rfl, hpr⟩

/-- C2: the frame decoder emits decoded text only by locating the first
PREAMBLE occurrence and a TERMINATOR occurrence strictly after it, with the
bits between them (truncated to whole bytes) as the decoded payload; with
no PREAMBLE occurrence nothing is emitted and the state stays SEARCHING
(no preamble flag, not complete, empty decode). -/
theorem decode_preamble_frame (buf : JSStr) :
    ((occs PREAMBLE buf).head? = none →
      decodeBinaryWithPreamble buf = ⟨false, false, []⟩) ∧
    (∀ i, (occs PREAMBLE buf).head? = some i →
      (∀ k, k < i → PREAMBLE.isPrefixOf (buf.drop k) = false) ∧
      ((decodeBinaryWithPreamble buf).isComplete = true →
        ∃ j, TERMINATOR.isPrefixOf ((buf.drop (i + PREAMBLE.length)).drop j) = true ∧
          (decodeBinaryWithPreamble buf).decoded =
            binaryToText (((buf.drop (i + PREAMBLE.length)).take j).take
              (((buf.drop (i + PREAMBLE.length)).take j).length / 8 * 8)) ∧
          isPrintable (decodeBinaryWithPreamble buf).decoded = true)) := by
  constructor
  · intro h
    unfold decodeBinaryWithPreamble
    rw [h]
  · intro i hi
    constructor
    · intro k hk
      by_contra hne
      have hpre : PREAMBLE.isPrefixOf (buf.drop k) = true := by
        cases hq : PREAMBLE.isPrefixOf (buf.drop k) with
        | false => exact absurd hq hne
        | true => rfl
      have hmem := mem_occs PREAMBLE buf k (by decide) hpre
      have := occs_head_le PREAMBLE buf i hi k hmem
      omega
    · intro hcomp
      have hunf : decodeBinaryWithPreamble buf =
          match (frameCands (buf.drop (i + PREAMBLE.length))).head? with
          | some jd => ⟨true, true, jd.2⟩
          | none => ⟨true, false, []⟩ := by
        unfold decodeBinaryWithPreamble
        rw [hi]
      cases hc : (frameCands (buf.drop (i + PREAMBLE.length))).head? with
      | none => rw [hunf, hc] at hcomp; simp at hcomp
      | some jd =>
        have hmem : jd ∈ frameCands (buf.drop (i + PREAMBLE.length)) := by
          cases hcl : frameCands (buf.drop (i + PREAMBLE.length)) with
          | nil => rw [hcl] at hc; simp at hc
          | cons a t =>
            rw [hcl] at hc
            simp only [List.head?_cons, Option.some.injEq] at hc
            rw [hc]
            simp
        obtain ⟨hterm, hdec, hpr⟩ := frameCands_mem _ jd hmem
        refine ⟨jd.1, hterm, ?_, ?_⟩
        · rw [hunf, hc]
          exact hdec
        · rw [hunf, hc]
          exact hpr

/-- C2 witness: a buffer with no preamble occurrence decodes to the
SEARCHING result. -/
theorem decode_preamble_frame_witness :
    decodeBinaryWithPreamble [48] = ⟨false, false, []⟩ :=
  (decode_preamble_frame [48]).1 (by decide)

/-! ## The buffer cap of the src Receiver loop -/

theorem trimBuf_le (l : JSStr) (h : l.length ≤ 201) : (trimBuf l).length ≤ 200 := by
  unfold trimBuf
  split_ifs with h2
  · rw [List.length_drop]
    omega
  · omega

theorem listenStep_len (buf : JSStr) (b : Bool) (h : buf.length ≤ 200) :
    (listenStep buf b).2.length ≤ 200 := by
  unfold listenStep
  dsimp only
  apply trimBuf_le
  split_ifs with h16
  · cases htd : tryDecode (buf ++ [bitChar b]) with
    | none => simp; omega
    | some ms =>
      dsimp only
      rw [List.length_drop, List.length_append]
      simp only [List.length_singleton]
      omega
  · simp
    omega

theorem runSteps_len : ∀ (bits : List Bool) (buf : JSStr), buf.length ≤ 200 →
    (runSteps buf bits).2.length ≤ 200 := by
  intro bits
  induction bits with
  | nil => intro buf h; simpa [runSteps] using h
  | cons b bs ih =>
    intro buf h
    simpa only [runSteps] using ih (listenStep buf b).2 (listenStep_len buf b h)

/-- C5: starting from any buffer within the 200-character cap (in
particular the empty one the loop starts from), the buffer stays within the
cap after every step of any accepted-symbol sequence, and the trim rule
only ever drops the oldest characters (a prefix), keeping the most recent
ones: above the cap it drops exactly the oldest 50. -/
theorem listen_buffer_bound (bits : List Bool) (buf : JSStr) (h : buf.length ≤ 200) :
    (runSteps buf bits).2.length ≤ 200 ∧
    (∀ l : JSStr, 200 < l.length → trimBuf l = l.drop 50) ∧
    (∀ l : JSStr, ∃ k, trimBuf l = l.drop k) := by
  refine ⟨runSteps_len bits buf h, ?_, ?_⟩
  · intro l hl
    simp [trimBuf, hl]
  · intro l
    unfold trimBuf
    split_ifs
    · exact ⟨50, rfl⟩
    · exact ⟨0, by simp⟩

/-- C5 witness: one step from the empty buffer stays within the cap. -/
theorem listen_buffer_bound_witness :
    (runSteps [] [true]).2.length ≤ 200 :=
  (listen_buffer_bound [true] [] (by decide)).1

/-- C6: in the part_000 accept loop a detection extends the bit buffer only
when the consecutive-detection counter has reached the confirmation count
of 2 (which requires the detection to fall within the 150 ms re-detection
window of the last accepted symbol) or its quality score exceeds the
high-confidence threshold 80; otherwise the buffer is left unchanged. -/
theorem accept_requires_confirmation (st : PState) (inp : PInput)
    (h : (stepP st inp).2.buffer ≠ st.buffer) :
    2 ≤ (stepP st inp).2.consec ∨ 80 < inp.quality := by
  unfold stepP at h ⊢
  by_cases hd : (inp.detected && inp.bit.isSome) = true
  · rw [if_pos hd] at h ⊢
    by_cases hacc : 2 ≤ (if inp.now - st.last < 150 then st.consec + 1 else 1) ∨
        80 < inp.quality
    · rw [if_pos hacc] at h ⊢
      dsimp only
      exact hacc
    · rw [if_neg hacc] at h
      exact absurd rfl h
  · rw [if_neg hd] at h
    dsimp only at h
    split_ifs at h <;> exact absurd rfl h

/-- C6 witness: a first detection with quality 90 is accepted through the
high-confidence bypass. -/
theorem accept_requires_confirmation_witness :
    2 ≤ (stepP ⟨[], 0, 0, false⟩ ⟨true, some true, 90, 10⟩).2.consec ∨ 80 < (90 : ℕ) :=
  accept_requires_confirmation ⟨[], 0, 0, false⟩ ⟨true, some true, 90, 10⟩ (by decide)

/-- C7 counterexample: encoding a text containing code point 256 does not
fail; it silently yields the 9-character bit string `100000000`. -/
theorem textToBinary_256_counterexample :
    textToBinary [256] = [49, 48, 48, 48, 48, 48, 48, 48, 48] := by
  decide

/-- C7 (amended): `textToBinary` never fails on any input; a character
whose code point is 256 or more silently contributes a chunk of more than
8 binary-digit characters (its full unpadded binary rendering), so the
output is no longer a sequence of 8-bit codes. -/
theorem textToBinary_overlong (c : ℕ) (hc : 256 ≤ c) :
    8 < (textToBinary [c]).length ∧ ∀ x ∈ textToBinary [c], isBinDigit x = true := by
  have h1 : textToBinary [c] = charBits c := by
    simp [textToBinary]
  rw [h1]
  exact ⟨len_charBits_gt c hc, charBits_all_bin c⟩

/-- C7 witness: the amended statement at code point 256. -/
theorem textToBinary_overlong_witness :
    8 < (textToBinary [256]).length :=
  (textToBinary_overlong 256 (by decide)).1

/-- C10: `decodeBinary` always decodes (the catch branch producing
'Invalid binary data received' is unreachable), and on any
line-terminator-free input whose length is not a multiple of 8 the
trailing short chunk is still decoded as one character: the output has
one more character than the number of whole bytes. -/
theorem decodeBinary_total (s : JSStr) :
    decodeBinary s = Except.ok (binaryToText s) ∧
    ((∀ c ∈ s, isLineTerm c = false) → ¬ (8 ∣ s.length) →
      (binaryToText s).length = s.length / 8 + 1) := by
  constructor
  · rfl
  · intro hnl hnd
    have hlen : (binaryToText s).length = (jsChunks s).length := by
      simp [binaryToText]
    rw [hlen, jsChunks_count s.length s le_rfl hnl]
    omega

/-- C10 witness: a 9-bit buffer decodes to two characters, the trailing
single bit becoming the second one. -/
theorem decodeBinary_total_witness :
    decodeBinary [48, 49, 48, 48, 48, 48, 48, 49, 49] =
      Except.ok (binaryToText [48, 49, 48, 48, 48, 48, 48, 49, 49]) ∧
    (binaryToText [48, 49, 48, 48, 48, 48, 48, 49, 49]).length = 2 := by
  have h := decodeBinary_total [48, 49, 48, 48, 48, 48, 48, 49, 49]
  exact ⟨h.1, by simpa using h.2 (by decide) (by decide)⟩

/-! ## General facts about the symbol detector -/

theorem energyQ_nonneg (data : List ℕ) (bin : ℕ) : 0 ≤ energyQ data bin := by
  rw [energyQ]
  positivity

theorem noiseLevelQ_nonneg (data : List ℕ) : 0 ≤ noiseLevelQ data := by
  rw [noiseLevelQ]
  split_ifs
  · positivity
  · norm_num

/-- C3: a non-NONE bit decision is reported only when the peak energy
exceeds the absolute floor 30, the signal-to-noise ratio exceeds 1, and the
energy difference exceeds the larger of three tenths of the peak energy and
the absolute floor 40 (the source conditions imply all three, the
difference condition being stated against total energy, which dominates
the peak). -/
theorem analyze_bit_conditions (data : List ℕ)
    (h : (analyzeSpectrum data).detectedBit ≠ none) :
    30 < maxEnergyQ data ∧ 1 < snrQ data ∧
      max (3 / 10 * maxEnergyQ data) 40 < energyDiffQ data := by
  have hb : detectedBitO data ≠ none := h
  rw [detectedBitO] at hb
  split_ifs at hb with hdet hcond
  · have hthr : dynThresholdQ data < maxEnergyQ data := by
      rw [detectedB, decide_eq_true_eq] at hdet
      exact hdet
    have hnoise : 0 ≤ noiseLevelQ data := noiseLevelQ_nonneg data
    have h30 : (30 : ℚ) ≤ dynThresholdQ data := le_max_right _ _
    have h15 : noiseLevelQ data + 15 ≤ dynThresholdQ data := le_max_left _ _
    refine ⟨by linarith, ?_, ?_⟩
    · rw [snrQ, one_lt_div (by linarith : (0 : ℚ) < noiseLevelQ data + 1)]
      linarith
    · have he0 : 0 ≤ energy0Q data := energyQ_nonneg _ _
      have he1 : 0 ≤ energy1Q data := energyQ_nonneg _ _
      have hmax : maxEnergyQ data ≤ energy0Q data + energy1Q data := by
        rw [maxEnergyQ]
        exact max_le (by linarith) (by linarith)
      refine max_lt ?_ hcond.2
      calc 3 / 10 * maxEnergyQ data
          ≤ 3 / 10 * (energy0Q data + energy1Q data) := by linarith
        _ = (energy0Q data + energy1Q data) * (3 / 10) := by ring
        _ < energyDiffQ data := hcond.1
  · exact absurd rfl hb
  · exact absurd rfl hb

/-! ## Evaluating the detector on the concrete 32-bin snapshots -/

theorem targetBin_2000_32 : targetBin 2000 32 = 3 := by
  unfold targetBin jsRoundQ
  have h : (((2000 : ℕ) : ℚ) / binSizeQ 32 + 1 / 2) = 3001 / 882 := by
    norm_num [binSizeQ]
  rw [h]
  have h2 : Int.floor ((3001 : ℚ) / 882) = 3 := by
    rw [Int.floor_eq_iff]
    norm_num
  rw [h2]
  rfl

theorem targetBin_5000_32 : targetBin 5000 32 = 7 := by
  unfold targetBin jsRoundQ
  have h : (((5000 : ℕ) : ℚ) / binSizeQ 32 + 1 / 2) = 6841 / 882 := by
    norm_num [binSizeQ]
  rw [h]
  have h2 : Int.floor ((6841 : ℚ) / 882) = 7 := by
    rw [Int.floor_eq_iff]
    norm_num
  rw [h2]
  rfl

theorem bin0_A : bin0 dataToneA = 3 := by
  rw [bin0, show dataToneA.length = 32 by decide]
  exact targetBin_2000_32

theorem bin1_A : bin1 dataToneA = 7 := by
  rw [bin1, show dataToneA.length = 32 by decide]
  exact targetBin_5000_32

theorem energy0_A : energy0Q dataToneA = 255 := by
  rw [energy0Q, bin0_A, energyQ, show windowSum dataToneA 3 = 1785 by decide]
  norm_num

theorem energy1_A : energy1Q dataToneA = 765 / 7 := by
  rw [energy1Q, bin1_A, energyQ, show windowSum dataToneA 7 = 765 by decide]
  norm_num

theorem noiseLevel_A : noiseLevelQ dataToneA = 0 := by
  rw [noiseLevelQ, noiseSum, noiseCount, bin0_A, bin1_A,
    show noiseSumAux dataToneA 3 7 = 0 by decide,
    show noiseCountAux dataToneA 3 7 = 18 by decide]
  norm_num

theorem maxEnergy_A : maxEnergyQ dataToneA = 255 := by
  rw [maxEnergyQ, energy0_A, energy1_A]
  rw [max_eq_left (by norm_num : (765 / 7 : ℚ) ≤ 255)]

theorem detectedB_A : detectedB dataToneA = true := by
  rw [detectedB, decide_eq_true_eq, dynThresholdQ, maxEnergy_A, noiseLevel_A]
  rw [max_eq_right (by norm_num : (0 : ℚ) + 15 ≤ 30)]
  norm_num

theorem energyDiff_A : energyDiffQ dataToneA = 1020 / 7 := by
  rw [energyDiffQ, energy0_A, energy1_A]
  rw [abs_of_nonneg (by norm_num : (0 : ℚ) ≤ 255 - 765 / 7)]
  norm_num

theorem detectedBit_A : detectedBitO dataToneA = some false := by
  rw [detectedBitO, if_pos detectedB_A, if_pos]
  · congr 1
    rw [decide_eq_false_iff_not, energy0_A, energy1_A]
    norm_num
  · constructor
    · rw [energy0_A, energy1_A, energyDiff_A]
      norm_num
    · rw [energyDiff_A]
      norm_num

/-- C3 witness: the amended conditions hold at the clean bit-0 tone
snapshot, where a bit is in fact reported. -/
theorem analyze_bit_conditions_witness :
    30 < maxEnergyQ dataToneA ∧ 1 < snrQ dataToneA ∧
      max (3 / 10 * maxEnergyQ dataToneA) 40 < energyDiffQ dataToneA :=
  analyze_bit_conditions dataToneA
    (by rw [show (analyzeSpectrum dataToneA).detectedBit = detectedBitO dataToneA from rfl,
      detectedBit_A]; simp)

theorem bin0_B : bin0 dataToneB = 3 := by
  rw [bin0, show dataToneB.length = 32 by decide]
  exact targetBin_2000_32

theorem bin1_B : bin1 dataToneB = 7 := by
  rw [bin1, show dataToneB.length = 32 by decide]
  exact targetBin_5000_32

theorem energy0_B : energy0Q dataToneB = 36 := by
  rw [energy0Q, bin0_B, energyQ, show windowSum dataToneB 3 = 252 by decide]
  norm_num

theorem energy1_B : energy1Q dataToneB = 30 := by
  rw [energy1Q, bin1_B, energyQ, show windowSum dataToneB 7 = 210 by decide]
  norm_num

theorem noiseLevel_B : noiseLevelQ dataToneB = 0 := by
  rw [noiseLevelQ, noiseSum, noiseCount, bin0_B, bin1_B,
    show noiseSumAux dataToneB 3 7 = 0 by decide,
    show noiseCountAux dataToneB 3 7 = 18 by decide]
  norm_num

theorem maxEnergy_B : maxEnergyQ dataToneB = 36 := by
  rw [maxEnergyQ, energy0_B, energy1_B]
  rw [max_eq_left (by norm_num : (30 : ℚ) ≤ 36)]

theorem energyDiff_B : energyDiffQ dataToneB = 6 := by
  rw [energyDiffQ, energy0_B, energy1_B]
  rw [abs_of_nonneg (by norm_num : (0 : ℚ) ≤ 36 - 30)]
  norm_num

theorem qualityRaw_B : qualityRawQ dataToneB = 100 := by
  rw [qualityRawQ, snrQ, maxEnergy_B, noiseLevel_B]
  norm_num

/-- C8 counterexample: on the two-tone snapshot the source returns quality
100 while the spec formula clamp(0, 100, round(diff / maxEnergy x 100))
gives 17. -/
theorem quality_formula_counterexample :
    (analyzeSpectrum dataToneB).signalQuality = 100 ∧
    specQualityScore dataToneB = 17 ∧
    (analyzeSpectrum dataToneB).signalQuality ≠ specQualityScore dataToneB := by
  have h1 : (analyzeSpectrum dataToneB).signalQuality = 100 := by
    show jsRoundQ (qualityRawQ dataToneB) = 100
    rw [qualityRaw_B, jsRoundQ]
    rw [Int.floor_eq_iff]
    norm_num
  have h2 : specQualityScore dataToneB = 17 := by
    rw [specQualityScore, energyDiff_B, maxEnergy_B]
    have h : ((6 : ℚ) / 36 * 100) = 103 / 6 - 1 / 2 := by norm_num
    rw [h, jsRoundQ]
    have h3 : Int.floor ((103 : ℚ) / 6 - 1 / 2 + 1 / 2) = 17 := by
      rw [Int.floor_eq_iff]
      norm_num
    rw [h3]
    rfl
  exact ⟨h1, h2, by rw [h1, h2]; decide⟩

/-- C8 (amended): the quality score the detector returns is
round(min(100, max(0, (snr - 1) x 20))) with snr = maxEnergy /
(noiseLevel + 1), not a function of diff / maxEnergy; it does always lie
between 0 and 100 inclusive. -/
theorem quality_amended (data : List ℕ) :
    (analyzeSpectrum data).signalQuality = jsRoundQ (qualityRawQ data) ∧
    0 ≤ (analyzeSpectrum data).signalQuality ∧
    (analyzeSpectrum data).signalQuality ≤ 100 := by
  refine ⟨rfl, ?_, ?_⟩
  · show 0 ≤ jsRoundQ (qualityRawQ data)
    have h0 : (0 : ℚ) ≤ qualityRawQ data := by
      rw [qualityRawQ]
      exact le_min (by norm_num) (le_max_left _ _)
    rw [jsRoundQ]
    exact Int.le_floor.mpr (by push_cast; linarith)
  · show jsRoundQ (qualityRawQ data) ≤ 100
    have h1 : qualityRawQ data ≤ 100 := min_le_left _ _
    rw [jsRoundQ]
    have h2 : Int.floor (qualityRawQ data + 1 / 2) < 101 :=
      Int.floor_lt.mpr (by push_cast; linarith)
    omega

/-! ## Only printable text leaves the src Receiver decode path -/

theorem bestStep_printable (buf : JSStr) (acc : JSStr × ℕ) (s : ℕ)
    (h : acc.1 = [] ∨ (isPrintable acc.1 = true ∧ acc.1 ≠ [])) :
    (bestStep buf acc s).1 = [] ∨
      (isPrintable (bestStep buf acc s).1 = true ∧ (bestStep buf acc s).1 ≠ []) := by
  unfold bestStep
  cases hc : candAt buf s with
  | none => exact h
  | some d =>
    dsimp only
    split_ifs with hcond
    · right
      exact ⟨hcond.1, List.length_pos.mp hcond.2.1⟩
    · exact h

theorem bestFold_printable (buf : JSStr) :
    (bestFold buf).1 = [] ∨
      (isPrintable (bestFold buf).1 = true ∧ (bestFold buf).1 ≠ []) := by
  have key : ∀ (L : List ℕ) (acc : JSStr × ℕ),
      acc.1 = [] ∨ (isPrintable acc.1 = true ∧ acc.1 ≠ []) →
      (L.foldl (bestStep buf) acc).1 = [] ∨
        (isPrintable (L.foldl (bestStep buf) acc).1 = true ∧
          (L.foldl (bestStep buf) acc).1 ≠ []) := by
    intro L
    induction L with
    | nil => intro acc h; exact h
    | cons s L ih =>
      intro acc h
      exact ih _ (bestStep_printable buf acc s h)
  exact key _ _ (Or.inl rfl)

theorem tryDecode_printable (buf : JSStr) (ms : JSStr × ℕ)
    (h : tryDecode buf = some ms) :
    isPrintable ms.1 = true ∧ ms.1 ≠ [] := by
  unfold tryDecode at h
  split_ifs at h with he
  rw [Option.some.injEq] at h
  subst h
  rcases bestFold_printable buf with h0 | h1
  · exact absurd (by simpa [List.isEmpty_iff] using h0) he
  · exact h1

theorem listenStep_emit (buf : JSStr) (b : Bool) (m : JSStr)
    (h : (listenStep buf b).1 = some m) :
    isPrintable m = true ∧ m ≠ [] := by
  unfold listenStep at h
  dsimp only at h
  split_ifs at h with h16
  cases htd : tryDecode (buf ++ [bitChar b]) with
  | none => rw [htd] at h; simp at h
  | some ms =>
    rw [htd] at h
    dsimp only at h
    rw [Option.some.injEq] at h
    subst h
    exact tryDecode_printable _ ms htd

theorem runSteps_emit : ∀ (bits : List Bool) (buf : JSStr) (m : JSStr),
    m ∈ (runSteps buf bits).1 → isPrintable m = true ∧ m ≠ [] := by
  intro bits
  induction bits with
  | nil => intro buf m h; simp [runSteps] at h
  | cons b bs ih =>
    intro buf m h
    simp only [runSteps, List.mem_append] at h
    rcases h with h | h
    · cases ho : (listenStep buf b).1 with
      | none => rw [ho] at h; simp at h
      | some m2 =>
        rw [ho] at h
        simp only [Option.toList_some, List.mem_singleton] at h
        subst h
        exact listenStep_emit buf b _ ho
    · exact ih _ m h

/-- C4: every message the src Receiver decode path ever emits, over any
run from any buffer, is non-empty and consists entirely of printable ASCII
characters (codes 32 to 126); non-printable candidate decodes are never
emitted and the loop keeps searching. -/
theorem receiver_emits_printable (bits : List Bool) (buf : JSStr) (m : JSStr)
    (h : m ∈ (runSteps buf bits).1) :
    m ≠ [] ∧ ∀ c ∈ m, 32 ≤ c ∧ c ≤ 126 := by
  obtain ⟨hp, hne⟩ := runSteps_emit bits buf m h
  refine ⟨hne, fun c hc => ?_⟩
  rw [isPrintable, List.all_eq_true] at hp
  have := hp c hc
  simp only [Bool.and_eq_true, decide_eq_true_eq] at this
  exact this

/-- C4 witness: the run decoding "hi" emits the message [104, 105], and
the theorem applies to it. -/
theorem receiver_emits_printable_witness :
    ([104, 105] : JSStr) ≠ [] :=
  (receiver_emits_printable (bitsOf (textToBinary [104, 105])) [] [104, 105]
    (by decide)).1

/-! ## Round-trip behaviour of the src Receiver loop -/

/-- C1 counterexample: feeding the framed bit sequence for the string "h"
(code 104) — start marker 1100, the 8 payload bits, end marker 0011, the
shared convention of `transmitText` — through the decode path one exact
symbol decision at a time emits the single message "4" (code 52), not "h",
and leaves 5 unconsumed characters in the buffer. -/
theorem roundtrip_framed_h_counterexample :
    (runFromEmpty (bitsOf ([49, 49, 48, 48] ++ textToBinary [104] ++ [48, 48, 49, 49]))).1
        = [[52]] ∧
    (runFromEmpty (bitsOf ([49, 49, 48, 48] ++ textToBinary [104] ++ [48, 48, 49, 49]))).2
        = [48, 48, 48, 49, 49] ∧
    ([[52]] : List JSStr) ≠ [[104]] := by
  exact ⟨by decide, by decide, by decide⟩

theorem map_bitChar_bitsOf : ∀ l : JSStr, (∀ x ∈ l, isBinDigit x = true) →
    (bitsOf l).map bitChar = l := by
  intro l
  induction l with
  | nil => intro _; rfl
  | cons c t ih =>
    intro h
    have hc := h c (by simp)
    have ht := ih fun x hx => h x (by simp [hx])
    rcases isBinDigit_cases hc with rfl | rfl <;>
      simp only [bitsOf, List.map_cons, bitChar] at ht ⊢ <;>
      simp [ht]

theorem trimBuf_small (l : JSStr) (h : l.length ≤ 200) : trimBuf l = l := by
  unfold trimBuf
  rw [if_neg (by omega)]

theorem listenStep_small (buf : JSStr) (b : Bool) (h : buf.length + 1 ≤ 15) :
    listenStep buf b = (none, buf ++ [bitChar b]) := by
  unfold listenStep
  dsimp only
  rw [if_neg (by simp; omega), trimBuf_small _ (by simp; omega)]

theorem run_no_decode : ∀ (bs : List Bool) (buf : JSStr),
    buf.length + bs.length ≤ 15 →
    runSteps buf bs = ([], buf ++ bs.map bitChar) := by
  intro bs
  induction bs with
  | nil => intro buf _; simp [runSteps]
  | cons b bs ih =>
    intro buf h
    have hstep : listenStep buf b = (none, buf ++ [bitChar b]) :=
      listenStep_small buf b (by simp at h; omega)
    have hrec := ih (buf ++ [bitChar b]) (by simp at h ⊢; omega)
    simp only [runSteps, hstep, hrec]
    simp

theorem runSteps_append : ∀ (xs ys : List Bool) (buf : JSStr),
    runSteps buf (xs ++ ys) =
      ((runSteps buf xs).1 ++ (runSteps (runSteps buf xs).2 ys).1,
        (runSteps (runSteps buf xs).2 ys).2) := by
  intro xs
  induction xs with
  | nil => intro ys buf; simp [runSteps]
  | cons x xs ih =>
    intro ys buf
    simp only [List.cons_append, runSteps, List.append_eq]
    rw [ih ys (listenStep buf x).2]
    simp [List.append_assoc]

theorem candAt_zero (a b : ℕ) (ha : a < 256) (hb : b < 256) :
    candAt (charBits a ++ charBits b) 0 = some [a, b] := by
  have hlen : (charBits a ++ charBits b).length = 16 := by
    simp [List.length_append, len_charBits a ha, len_charBits b hb]
  unfold candAt
  dsimp only
  rw [List.drop_zero, hlen]
  norm_num
  rw [List.take_of_length_le (by omega), binaryToText_charBits_pair a b ha hb]

theorem candAt_mid (buf : JSStr) (s : ℕ) (hlen : buf.length = 16)
    (hbin : ∀ x ∈ buf, isBinDigit x = true) (hs1 : 1 ≤ s) (hs8 : s ≤ 8) :
    ∃ d, candAt buf s = some d ∧ d.length = 1 := by
  unfold candAt
  dsimp only
  have hdl : (buf.drop s).length = 16 - s := by
    rw [List.length_drop, hlen]
  have hbyte : (16 - s) / 8 * 8 = 8 := by omega
  rw [hdl, hbyte]
  refine ⟨binaryToText ((buf.drop s).take 8), by norm_num, ?_⟩
  have htl : ((buf.drop s).take 8).length = 8 := by
    rw [List.length_take, hdl]
    omega
  have hbin2 : ∀ x ∈ (buf.drop s).take 8, isBinDigit x = true := fun x hx =>
    hbin x (List.mem_of_mem_drop (List.mem_of_mem_take hx))
  rw [binaryToText_single _ htl hbin2]
  rfl

theorem bestStep_skip (buf : JSStr) (acc : JSStr × ℕ) (s : ℕ) (d : JSStr)
    (hc : candAt buf s = some d) (hle : d.length ≤ acc.1.length) :
    bestStep buf acc s = acc := by
  unfold bestStep
  rw [hc]
  dsimp only
  rw [if_neg]
  intro hcond
  omega

theorem foldl_skip (buf : JSStr) : ∀ (L : List ℕ) (acc : JSStr × ℕ),
    (∀ s ∈ L, bestStep buf acc s = acc) →
    L.foldl (bestStep buf) acc = acc := by
  intro L
  induction L with
  | nil => intro acc _; rfl
  | cons s L ih =>
    intro acc h
    rw [List.foldl_cons, h s (by simp)]
    exact ih acc fun t ht => h t (by simp [ht])

theorem tryDecode_16 (a b : ℕ) (ha32 : 32 ≤ a) (ha : a ≤ 126)
    (hb32 : 32 ≤ b) (hb : b ≤ 126) :
    tryDecode (charBits a ++ charBits b) = some ([a, b], 0) := by
  have ha256 : a < 256 := by omega
  have hb256 : b < 256 := by omega
  have hlen : (charBits a ++ charBits b).length = 16 := by
    simp [List.length_append, len_charBits a ha256, len_charBits b hb256]
  have hbin : ∀ x ∈ charBits a ++ charBits b, isBinDigit x = true := by
    intro x hx
    rcases List.mem_append.mp hx with hx | hx
    · exact charBits_all_bin a x hx
    · exact charBits_all_bin b x hx
  have hpr : isPrintable [a, b] = true := by
    simp [isPrintable]
    omega
  have h0 : bestStep (charBits a ++ charBits b) ([], 0) 0 = ([a, b], 0) := by
    unfold bestStep
    rw [candAt_zero a b ha256 hb256]
    dsimp only
    rw [if_pos ⟨hpr, by norm_num, by norm_num⟩]
  have hskip : ∀ s ∈ [1, 2, 3, 4, 5, 6, 7, 8],
      bestStep (charBits a ++ charBits b) ([a, b], 0) s = ([a, b], 0) := by
    intro s hs
    have hsb : 1 ≤ s ∧ s ≤ 8 := by
      simp only [List.mem_cons, List.not_mem_nil, or_false] at hs
      omega
    obtain ⟨d, hc, hd1⟩ := candAt_mid (charBits a ++ charBits b) s hlen hbin hsb.1 hsb.2
    exact bestStep_skip _ ([a, b], 0) s d hc (by rw [hd1]; simp)
  have hrange : List.range 9 = 0 :: [1, 2, 3, 4, 5, 6, 7, 8] := by decide
  unfold tryDecode bestFold
  rw [hrange, List.foldl_cons, h0, foldl_skip _ _ _ hskip]
  simp

/-- C1 (amended): the unframed round-trip holds exactly for printable
strings of two characters: feeding the bit sequence of `textToBinary` for
a two-character printable string through the decode path one exact symbol
decision at a time, starting from the empty buffer, emits exactly that
string, once, leaving the bit buffer empty. -/
theorem roundtrip_two_chars (a b : ℕ) (ha32 : 32 ≤ a) (ha : a ≤ 126)
    (hb32 : 32 ≤ b) (hb : b ≤ 126) :
    runFromEmpty (bitsOf (textToBinary [a, b])) = ([[a, b]], []) := by
  have ha256 : a < 256 := by omega
  have hb256 : b < 256 := by omega
  have htb : textToBinary [a, b] = charBits a ++ charBits b := by
    simp [textToBinary]
  rw [htb]
  have hlen : (charBits a ++ charBits b).length = 16 := by
    rw [List.length_append, len_charBits a ha256, len_charBits b hb256]
  have hbin : ∀ x ∈ charBits a ++ charBits b, isBinDigit x = true := by
    intro x hx
    rcases List.mem_append.mp hx with hx | hx
    · exact charBits_all_bin a x hx
    · exact charBits_all_bin b x hx
  have hmapback : (bitsOf (charBits a ++ charBits b)).map bitChar =
      charBits a ++ charBits b := map_bitChar_bitsOf _ hbin
  have hblen : (bitsOf (charBits a ++ charBits b)).length = 16 := by
    rw [bitsOf, List.length_map, hlen]
  obtain ⟨ys, z, hyz⟩ : ∃ ys z, bitsOf (charBits a ++ charBits b) = ys ++ [z] := by
    rcases List.eq_nil_or_concat (bitsOf (charBits a ++ charBits b)) with h | ⟨ys, z, h⟩
    · rw [h] at hblen
      simp at hblen
    · exact ⟨ys, z, by simpa [List.concat_eq_append] using h⟩
  have hylen : ys.length = 15 := by
    rw [hyz] at hblen
    simp at hblen
    omega
  have hbuf1 : ys.map bitChar ++ [bitChar z] = charBits a ++ charBits b := by
    have : (ys ++ [z]).map bitChar = charBits a ++ charBits b := by
      rw [← hyz]
      exact hmapback
    simpa using this
  have hstep : listenStep (ys.map bitChar) z = (some [a, b], []) := by
    unfold listenStep
    dsimp only
    rw [hbuf1, if_pos (by omega : 16 ≤ (charBits a ++ charBits b).length),
      tryDecode_16 a b ha32 ha hb32 hb]
    dsimp only
    rw [show (0 + ([a, b] : JSStr).length * 8) = 16 by simp]
    rw [List.drop_eq_nil_of_le (by omega)]
    rfl
  have hys : runSteps [] ys = ([], ys.map bitChar) :=
    run_no_decode ys [] (by simp [hylen])
  rw [runFromEmpty, hyz, runSteps_append ys [z] [], hys]
  simp [runSteps, hstep]

/-- C1 witness: the amended round-trip at the concrete string "hi". -/
theorem roundtrip_two_chars_witness :
    runFromEmpty (bitsOf (textToBinary [104, 105])) = ([[104, 105]], []) :=
  roundtrip_two_chars 104 105 (by norm_num) (by norm_num) (by norm_num) (by norm_num)

end SilentCast
